import Mathlib

/-!
# journalhook: forwarding logrus entries to the systemd journal

A shallow embedding of `journalhook.go` and of the library operations it calls
(`strings.Map`, `strings.HasPrefix`, `strings.TrimPrefix`, Go maps, `fmt.Sprint`,
`journal.Send`), followed by the properties proved about it.

Conventions of the embedding:
* a Go `string` is its sequence of bytes (`List Nat`, every byte below 256);
* a Go `rune` is an `Int`;
* a Go map is a list of key/value pairs with pairwise distinct keys; the order in
  which `range` visits a map is not fixed by the language, so it is a parameter;
* a map-typed field that may hold the nil map is an `Option`: the nil map is read as an
  empty map, and an assignment into it panics;
* a call that can panic returns `none`, or an outcome that records the panic.
-/

set_option autoImplicit false

namespace Journalhook

/-! ## Go strings and runes -/

/-- Go `string`: an immutable sequence of bytes. -/
abbrev GoString := List Nat

/-- Go `rune`: an alias of `int32`, holding a Unicode code point. -/
abbrev Rune := Int

/-- The constant `utf8.RuneError` (U+FFFD), produced for every invalid encoding. -/
def RuneError : Rune := 0xFFFD

/-- The constant `utf8.MaxRune`. -/
def MaxRune : Rune := 0x10FFFF

/-- The function `utf8.AppendRune`, as used by `Builder.WriteRune`: the UTF-8 encoding of a
rune; runes out of range and surrogates are written as the encoding of `RuneError`. -/
def encodeRune (r : Rune) : GoString :=
  let n := r.toNat
  if r < 0 then [0xEF, 0xBF, 0xBD]
  else if n ≤ 0x7F then [n]
  else if n ≤ 0x7FF then [0xC0 + n / 64, 0x80 + n % 64]
  else if n > 0x10FFFF ∨ (0xD800 ≤ n ∧ n ≤ 0xDFFF) then [0xEF, 0xBF, 0xBD]
  else if n ≤ 0xFFFF then [0xE0 + n / 4096, 0x80 + (n / 64) % 64, 0x80 + n % 64]
  else [0xF0 + n / 262144, 0x80 + (n / 4096) % 64, 0x80 + (n / 64) % 64, 0x80 + n % 64]

/-- A Go string literal: the UTF-8 bytes of the text. -/
def lit (s : String) : GoString :=
  s.data.flatMap (fun c => encodeRune (Int.ofNat c.toNat))

/-- The table `utf8.first` together with `utf8.acceptRanges`: for a leading byte of a
multi-byte sequence, the size of the sequence and the accepted range of the second byte;
`none` for ASCII bytes and for bytes that cannot start a sequence. -/
def first (b : Nat) : Option (Nat × Nat × Nat) :=
  if 0xC2 ≤ b ∧ b ≤ 0xDF then some (2, 0x80, 0xBF)
  else if b = 0xE0 then some (3, 0xA0, 0xBF)
  else if 0xE1 ≤ b ∧ b ≤ 0xEC then some (3, 0x80, 0xBF)
  else if b = 0xED then some (3, 0x80, 0x9F)
  else if 0xEE ≤ b ∧ b ≤ 0xEF then some (3, 0x80, 0xBF)
  else if b = 0xF0 then some (4, 0x90, 0xBF)
  else if 0xF1 ≤ b ∧ b ≤ 0xF3 then some (4, 0x80, 0xBF)
  else if b = 0xF4 then some (4, 0x80, 0x8F)
  else none

/-- The function `utf8.DecodeRuneInString`: the first rune of `s` and its width in bytes.
An empty string gives `(RuneError, 0)`, an invalid encoding `(RuneError, 1)`. The masks
`s0 & 0x1F`, `s0 & 0x0F`, `s0 & 0x07`, `s & 0x3F` are written as remainders and the
shifts as products. -/
def DecodeRuneInString (s : GoString) : Rune × Nat :=
  match s with
  | [] => (RuneError, 0)
  | s0 :: _ =>
    if s0 < 0x80 then (Int.ofNat s0, 1)
    else
      match first s0 with
      | none => (RuneError, 1)
      | some (sz, lo, hi) =>
        if s.length < sz then (RuneError, 1)
        else
          let s1 := s.getD 1 0
          if s1 < lo ∨ hi < s1 then (RuneError, 1)
          else if sz ≤ 2 then (Int.ofNat ((s0 % 32) * 64 + s1 % 64), 2)
          else
            let s2 := s.getD 2 0
            if s2 < 0x80 ∨ 0xBF < s2 then (RuneError, 1)
            else if sz ≤ 3 then
              (Int.ofNat ((s0 % 16) * 4096 + (s1 % 64) * 64 + s2 % 64), 3)
            else
              let s3 := s.getD 3 0
              if s3 < 0x80 ∨ 0xBF < s3 then (RuneError, 1)
              else
                (Int.ofNat ((s0 % 8) * 262144 + (s1 % 64) * 4096 + (s2 % 64) * 64 + s3 % 64), 4)

/-- The loop of `strings.Map`, `for _, c := range s`: at the start of a rune (`skip = 0`)
the rune is decoded and `mapping` applied to it; a negative result is dropped, any other is
appended in UTF-8; the loop then advances by the width of the rune, which `skip` counts
down over the remaining bytes of the rune. -/
def strings.mapLoop (mapping : Rune → Rune) : Nat → GoString → GoString
  | _, [] => []
  | skip + 1, _ :: rest => strings.mapLoop mapping skip rest
  | 0, c :: rest =>
    let d := DecodeRuneInString (c :: rest)
    let r := mapping d.1
    (if r ≥ 0 then encodeRune r else []) ++ strings.mapLoop mapping (d.2 - 1) rest

/-- The function `strings.Map`: a copy of `s` with every rune replaced by `mapping` of it. -/
def strings.Map (mapping : Rune → Rune) (s : GoString) : GoString :=
  strings.mapLoop mapping 0 s

/-- The function `strings.HasPrefix`:
`len(s) >= len(prefix) && s[:len(prefix)] == prefix`. -/
def strings.HasPrefix (s pre : GoString) : Bool :=
  decide (s.length ≥ pre.length) && decide (s.take pre.length = pre)

/-- The function `strings.TrimPrefix`: `s` without the leading `prefix`, or `s` itself when
it does not start with `prefix`. -/
def strings.TrimPrefix (s pre : GoString) : GoString :=
  if strings.HasPrefix s pre then s.drop pre.length else s

/-! ## Key sanitisation (`journalhook.go`, lines 25-48) -/

/-- The function `stringifyOp` of `journalhook.go`. The rune literals are written as their
code points: `'A'` = 65, `'Z'` = 90, `'0'` = 48, `'9'` = 57, `'_'` = 95, `'a'` = 97,
`'z'` = 122. -/
def stringifyOp (r : Rune) : Rune :=
  if r ≥ 65 ∧ r ≤ 90 then r
  else if r ≥ 48 ∧ r ≤ 57 then r
  else if r = 95 then r
  else if r ≥ 97 ∧ r ≤ 122 then r - 32
  else 95

/-- The function `stringifyKey` of `journalhook.go`. -/
def stringifyKey (key : GoString) : GoString :=
  let key := strings.Map stringifyOp key
  if strings.HasPrefix key (lit "_") then strings.TrimPrefix key (lit "_") else key

/-! ## Go maps -/

/-- Go `map[K]V`: a finite set of key/value pairs with pairwise distinct keys. -/
abbrev GoMap (K V : Type) := List (K × V)

/-- The value stored under `k`, if any (the two-result form `v, ok := m[k]`). -/
def GoMap.get? {K V : Type} [DecidableEq K] : GoMap K V → K → Option V
  | [], _ => none
  | (k', v) :: m, k => if k' = k then some v else GoMap.get? m k

/-- The index expression `m[k]`: the stored value, or the zero value of `V` when `k` is
absent. -/
def GoMap.index {K V : Type} [DecidableEq K] (zero : V) (m : GoMap K V) (k : K) : V :=
  (m.get? k).getD zero

/-- The assignment `m[k] = v`: any pair stored under `k` is replaced. -/
def GoMap.set {K V : Type} [DecidableEq K] (m : GoMap K V) (k : K) (v : V) : GoMap K V :=
  (k, v) :: m.filter (fun p => decide (p.1 ≠ k))

/-- The keys of a map. -/
def GoMap.keys {K V : Type} (m : GoMap K V) : List K :=
  m.map Prod.fst

/-! ## Values and formatting -/

/-- A value of type `interface{}`: a string, an integer, or a value of any other dynamic
type, which is represented by the text `fmt.Sprint` prints for it. -/
inductive Value where
  | str (s : GoString)
  | int (i : Int)
  | other (text : GoString)
  deriving DecidableEq, Repr

/-- The verb `%d` of package `fmt`: the decimal digits of an integer, with a minus sign when
it is negative. -/
def formatInt (i : Int) : GoString :=
  let digits := (Nat.toDigits 10 i.natAbs).map Char.toNat
  if i < 0 then 45 :: digits else digits

/-- The function `fmt.Sprint` at one operand: the default text of the value. -/
def fmtSprint : Value → GoString
  | .str s => s
  | .int i => formatInt i
  | .other text => text

/-- The call `fmt.Sprintf("%s:%d", file, line)`. -/
def fmtSprintf_s_d (file : GoString) (line : Int) : GoString :=
  file ++ lit ":" ++ formatInt line

/-! ## logrus and the journal client -/

/-- The type `logrus.Level` (a `uint32`). -/
abbrev Level := Nat

def PanicLevel : Level := 0
def FatalLevel : Level := 1
def ErrorLevel : Level := 2
def WarnLevel : Level := 3
def InfoLevel : Level := 4
def DebugLevel : Level := 5
def TraceLevel : Level := 6

/-- The type `journal.Priority` (an `int`), declared with `iota` from `PriEmerg`. -/
abbrev Priority := Int

def PriEmerg : Priority := 0
def PriAlert : Priority := 1
def PriCrit : Priority := 2
def PriErr : Priority := 3
def PriWarning : Priority := 4
def PriNotice : Priority := 5
def PriInfo : Priority := 6
def PriDebug : Priority := 7

/-- The type `runtime.Frame`, restricted to the fields the hook reads. -/
structure Frame where
  Function : GoString
  File : GoString
  Line : Int
  deriving DecidableEq, Repr

/-- The type `logrus.Logger`, restricted to the field `HasCaller` reads. -/
structure Logger where
  ReportCaller : Bool
  deriving DecidableEq, Repr

/-- The type `logrus.Entry`, restricted to the fields the hook reads or writes. `Logger` and
`Caller` are pointers, `none` being `nil`. `DataMap` is the field `Data`, of the map type
`logrus.Fields`: `none` is the nil map (the zero value of the field), `some m` a map with
the pairs `m`. -/
structure Entry where
  Logger : Option Logger
  DataMap : Option (GoMap GoString Value)
  Level : Level
  Caller : Option Frame
  Message : GoString
  deriving DecidableEq, Repr

/-- The map `entry.Data` as it is read: its pairs. The nil map has none; Go reads it, and
ranges over it, as an empty map. -/
def Entry.Data (entry : Entry) : GoMap GoString Value :=
  entry.DataMap.getD []

/-- The assignment `entry.Data[k] = v`. On the nil map Go panics (assignment to entry in
nil map), which is `none`; otherwise the map is updated in place. -/
def Entry.setData (entry : Entry) (k : GoString) (v : Value) : Option Entry :=
  match entry.DataMap with
  | none => none
  | some m => some { entry with DataMap := some (m.set k v) }

/-- The method `Entry.HasCaller` of logrus:
`entry.Logger != nil && entry.Logger.ReportCaller && entry.Caller != nil`. -/
def Entry.HasCaller (entry : Entry) : Bool :=
  match entry.Logger with
  | none => false
  | some logger => logger.ReportCaller && entry.Caller.isSome

/-- A Go `error` value; the interface value `nil` is `none` of `Option GoError`. -/
structure GoError where
  text : GoString
  deriving DecidableEq, Repr

/-- The arguments of one call of `journal.Send`. -/
structure SendCall where
  message : GoString
  priority : Priority
  vars : GoMap GoString GoString
  deriving DecidableEq, Repr

/-- The journal client as the hook sees it: `respond` is the behaviour of the daemon (the
error, or `nil`, it answers to a call, given the calls made before), `sent` the calls made
so far. -/
structure Journal where
  respond : List SendCall → SendCall → Option GoError
  sent : List SendCall

/-- The function `journal.Send`: the call is recorded and the daemon's answer returned. -/
def journal.Send (j : Journal) (message : GoString) (priority : Priority)
    (vars : GoMap GoString GoString) : Option GoError × Journal :=
  let call : SendCall := ⟨message, priority, vars⟩
  (j.respond j.sent call, { j with sent := j.sent ++ [call] })

/-! ## The hook (`journalhook.go`, lines 12-23 and 50-91) -/

/-- The type `JournalHook`, an empty struct. -/
structure JournalHook where
  deriving DecidableEq, Repr

/-- The variable `severityMap` of `journalhook.go`. -/
def severityMap : GoMap Level Priority :=
  [ (DebugLevel, PriDebug),
    (InfoLevel, PriInfo),
    (WarnLevel, PriWarning),
    (ErrorLevel, PriErr),
    (FatalLevel, PriCrit),
    (PanicLevel, PriEmerg) ]

/-- The function `stringifyEntries` of `journalhook.go`. `range` gives the order in which
the statement `for k, v := range data` visits the pairs of `data`, which Go leaves
unspecified. -/
def stringifyEntries (range : GoMap GoString Value → List (GoString × Value))
    (data : GoMap GoString Value) : GoMap GoString GoString :=
  (range data).foldl
    (fun entries kv =>
      let key := stringifyKey kv.1
      entries.set key (fmtSprint kv.2))
    []

/-- The method `setCaller` of `journalhook.go`. The map `entry.Data` is updated in place;
the entry returned carries the updated map. The result is `none` when an assignment
panics, which happens on the nil map; the panic comes before any update, so the entry is
then as it was. -/
def JournalHook.setCaller (_hook : JournalHook) (entry : Entry) : Option Entry :=
  if entry.HasCaller then
    match entry.Caller with
    | none => some entry
    | some caller =>
      let funcVal := caller.Function
      let fileVal := fmtSprintf_s_d caller.File caller.Line
      match (if funcVal ≠ lit "" then entry.setData (lit "func") (Value.str funcVal)
          else some entry) with
      | none => none
      | some entry =>
        if fileVal ≠ lit "" then entry.setData (lit "file") (Value.str fileVal)
        else some entry
  else some entry

/-- How a call of `Fire` ends: it returns an error value (`nil` being `none`), or it
panics and returns nothing. -/
inductive Outcome where
  | returned (err : Option GoError)
  | panicked
  deriving DecidableEq, Repr

/-- What a call of `Fire` does: how it ends, the entry as `Fire` leaves it, and the journal
client after the call. -/
structure FireResult where
  outcome : Outcome
  entry : Entry
  journal : Journal

/-- The method `Fire` of `journalhook.go`. When `setCaller` panics, `Fire` panics with it:
`journal.Send` is not called and the entry is as it was. -/
def JournalHook.Fire (hook : JournalHook)
    (range : GoMap GoString Value → List (GoString × Value))
    (j : Journal) (entry : Entry) : FireResult :=
  match hook.setCaller entry with
  | none => ⟨Outcome.panicked, entry, j⟩
  | some entry =>
    let r := journal.Send j entry.Message (GoMap.index 0 severityMap entry.Level)
      (stringifyEntries range entry.Data)
    ⟨Outcome.returned r.1, entry, r.2⟩

/-- The method `Levels` of `journalhook.go`. -/
def JournalHook.Levels (_hook : JournalHook) : List Level :=
  [ PanicLevel,
    FatalLevel,
    ErrorLevel,
    WarnLevel,
    InfoLevel,
    DebugLevel ]

/-- The bytes the journal accepts in a variable name: `A`-`Z`, `0`-`9` and `_`. -/
def identByte (b : Nat) : Prop :=
  (65 ≤ b ∧ b ≤ 90) ∨ (48 ≤ b ∧ b ≤ 57) ∨ b = 95

instance (b : Nat) : Decidable (identByte b) := by
  unfold identByte; infer_instance

/-- A journal that accepts every call and has recorded none. -/
def quietJournal : Journal :=
  ⟨fun _ _ => none, []⟩

/-- A caller frame: function `main.f` at `a.go:7`. -/
def sampleFrame : Frame :=
  ⟨lit "main.f", lit "a.go", 7⟩

/-- An entry of a logger that reports callers: message `boom`, level Error, metadata
`{"user-id": 42}`, caller `sampleFrame`. -/
def sampleEntry : Entry :=
  ⟨some ⟨true⟩, some [(lit "user-id", Value.int 42)], ErrorLevel, some sampleFrame,
    lit "boom"⟩

/-- An entry built by hand, as `&logrus.Entry{...}` with the field `Data` left out: it
carries caller info (`sampleFrame`) and its metadata is the nil map. -/
def nilDataEntry (level : Level) : Entry :=
  ⟨some ⟨true⟩, none, level, some sampleFrame, lit "boom"⟩

/-! ## Activation (`journalhook.go`, lines 93-102) -/

/-- An `io.Writer` the logger writes to: `ioutil.Discard`, or another writer, which is
identified by a name. -/
inductive Writer where
  | discard
  | other (name : GoString)
  deriving DecidableEq, Repr

/-- A value of the interface type `logrus.Hook`: a `*JournalHook`, or a hook of another
type, which is identified by a name. -/
inductive Hook where
  | journalHook (hook : JournalHook)
  | other (name : GoString)
  deriving DecidableEq, Repr

/-- The process-wide standard logger of logrus, as explicit state: its output writer `Out`,
its table `Hooks` of the hooks registered for each level, its threshold `Level`, and two
records of what it has done: the messages written, each with the writer it went to, and
the hooks fired, each with the level and the message of the entry. -/
structure StdLogger where
  Out : Writer
  Hooks : GoMap Level (List Hook)
  Level : Level
  written : List (Writer × GoString)
  fired : List (Hook × Journalhook.Level × GoString)
  deriving DecidableEq, Repr

/-- The method `LevelHooks.Add` of logrus, for a `*JournalHook`:
`for _, level := range hook.Levels() { hooks[level] = append(hooks[level], hook) }`. -/
def LevelHooks.Add (hooks : GoMap Level (List Hook)) (hook : JournalHook) :
    GoMap Level (List Hook) :=
  hook.Levels.foldl
    (fun hooks level => hooks.set level (GoMap.index [] hooks level ++ [Hook.journalHook hook]))
    hooks

/-- The function `logrus.AddHook` on the standard logger. -/
def logrus.AddHook (std : StdLogger) (hook : JournalHook) : StdLogger :=
  { std with Hooks := LevelHooks.Add std.Hooks hook }

/-- The function `logrus.SetOutput` on the standard logger. -/
def logrus.SetOutput (std : StdLogger) (out : Writer) : StdLogger :=
  { std with Out := out }

/-- The function `logrus.Warning` on the standard logger: when the threshold of the logger
admits the Warn level, the hooks registered for that level are fired and the message is
written to the current output writer. -/
def logrus.Warning (std : StdLogger) (msg : GoString) : StdLogger :=
  if std.Level ≥ WarnLevel then
    { std with
      fired := std.fired ++ (GoMap.index [] std.Hooks WarnLevel).map (fun h => (h, WarnLevel, msg))
      written := std.written ++ [(std.Out, msg)] }
  else std

/-- The text of the warning `Enable` logs. -/
def enableWarning : GoString :=
  lit "Journal not available but user requests we log to it. Ignoring"

/-- The function `Enable` of `journalhook.go`; `journalEnabled` is the answer of
`journal.Enabled()`. -/
def Enable (journalEnabled : Bool) (std : StdLogger) : StdLogger :=
  if !journalEnabled then
    logrus.Warning std enableWarning
  else
    logrus.SetOutput (logrus.AddHook std JournalHook.mk) Writer.discard

/-- A standard logger as logrus creates it: output to `os.Stderr`, no hooks, threshold
Info, nothing written or fired yet. -/
def freshLogger : StdLogger :=
  ⟨Writer.other (lit "os.Stderr"), [], InfoLevel, [], []⟩

/-! ## Properties of the string operations -/

theorem lit_underscore : lit "_" = [95] := by decide

theorem stringifyOp_range (r : Rune) :
    0 ≤ stringifyOp r ∧ stringifyOp r ≤ 127 ∧ identByte (stringifyOp r).toNat := by
  unfold stringifyOp identByte Rune
  split_ifs <;> omega

theorem encodeRune_ascii (r : Int) (h0 : 0 ≤ r) (h1 : r ≤ 127) :
    encodeRune r = [r.toNat] := by
  unfold encodeRune
  have h2 : ¬ r < 0 := by omega
  have h3 : r.toNat ≤ 0x7F := by omega
  simp [h2, h3]

theorem mapLoop_stringifyOp_ident (s : GoString) :
    ∀ (skip : Nat), ∀ b ∈ strings.mapLoop stringifyOp skip s, identByte b := by
  induction s with
  | nil => intro skip b hb; cases skip <;> simp [strings.mapLoop] at hb
  | cons c rest ih =>
    intro skip b hb
    cases skip with
    | succ n => exact ih n b (by simpa [strings.mapLoop] using hb)
    | zero =>
      obtain ⟨h0, h1, h2⟩ := stringifyOp_range (DecodeRuneInString (c :: rest)).1
      simp only [strings.mapLoop, ge_iff_le, h0, if_true, encodeRune_ascii _ h0 h1,
        List.singleton_append, List.mem_cons] at hb
      rcases hb with hb | hb
      · rw [hb]; exact h2
      · exact ih _ b hb

theorem hasPrefix_underscore (t : GoString) :
    strings.HasPrefix t [95] = true ↔ t.head? = some 95 := by
  cases t with
  | nil => simp [strings.HasPrefix]
  | cons a rest => simp [strings.HasPrefix]

theorem stringifyKey_eq (key : GoString) :
    stringifyKey key =
      if (strings.Map stringifyOp key).head? = some 95 then (strings.Map stringifyOp key).tail
      else strings.Map stringifyOp key := by
  simp only [stringifyKey, lit_underscore, strings.TrimPrefix]
  by_cases h : (strings.Map stringifyOp key).head? = some 95
  · have h1 := (hasPrefix_underscore _).2 h
    simp [h, h1]
  · have h1 : strings.HasPrefix (strings.Map stringifyOp key) [95] = false := by
      rw [Bool.eq_false_iff]; intro hc; exact h ((hasPrefix_underscore _).1 hc)
    simp [h, h1]

/-! ## Properties of Go maps -/

theorem get?_filter_ne {K V : Type} [DecidableEq K] (m : GoMap K V) (k k' : K)
    (h : k' ≠ k) :
    GoMap.get? (m.filter (fun p => decide (p.1 ≠ k))) k' = GoMap.get? m k' := by
  induction m with
  | nil => rfl
  | cons p rest ih =>
    obtain ⟨a, b⟩ := p
    by_cases ha : a = k
    · have hak : a ≠ k' := by rw [ha]; exact fun hc => h hc.symm
      simp [List.filter_cons, ha, GoMap.get?, hak, h, ih, Ne.symm h]
      rw [← ha] at ih ⊢
      simpa [ha] using ih
    · rw [List.filter_cons_of_pos (by simp [ha])]
      simp only [GoMap.get?]
      rw [ih]

theorem get?_set_self {K V : Type} [DecidableEq K] (m : GoMap K V) (k : K) (v : V) :
    GoMap.get? (GoMap.set m k v) k = some v := by
  simp [GoMap.set, GoMap.get?]

theorem get?_set_ne {K V : Type} [DecidableEq K] (m : GoMap K V) (k k' : K) (v : V)
    (h : k' ≠ k) :
    GoMap.get? (GoMap.set m k v) k' = GoMap.get? m k' := by
  simp only [GoMap.set, GoMap.get?, Ne.symm h, if_false]
  exact get?_filter_ne m k k' h

theorem mem_set {K V : Type} [DecidableEq K] (m : GoMap K V) (k : K) (v : V) (p : K × V)
    (hp : p ∈ GoMap.set m k v) : p = (k, v) ∨ p ∈ m := by
  simp only [GoMap.set, List.mem_cons, List.mem_filter] at hp
  rcases hp with hp | hp
  · exact Or.inl hp
  · exact Or.inr hp.1

theorem mem_keys_set {K V : Type} [DecidableEq K] (m : GoMap K V) (k x : K) (v : V) :
    x ∈ GoMap.keys (GoMap.set m k v) ↔ x = k ∨ x ∈ GoMap.keys m := by
  simp only [GoMap.keys, GoMap.set, List.map_cons, List.mem_cons, List.mem_map,
    List.mem_filter, decide_eq_true_eq]
  constructor
  · rintro (h | ⟨p, ⟨hp, _⟩, rfl⟩)
    · exact Or.inl h
    · exact Or.inr ⟨p, hp, rfl⟩
  · rintro (h | ⟨p, hp, rfl⟩)
    · exact Or.inl h
    · by_cases hk : p.1 = k
      · exact Or.inl hk
      · exact Or.inr ⟨p, ⟨hp, hk⟩, rfl⟩

theorem nodup_keys_set {K V : Type} [DecidableEq K] (m : GoMap K V) (k : K) (v : V)
    (h : (GoMap.keys m).Nodup) : (GoMap.keys (GoMap.set m k v)).Nodup := by
  simp only [GoMap.keys, GoMap.set, List.map_cons, List.nodup_cons, List.mem_map,
    List.mem_filter, decide_eq_true_eq, not_exists, not_and]
  refine ⟨fun p hp hk => hp.2 hk, ?_⟩
  exact List.Nodup.sublist (List.Sublist.map _ (List.filter_sublist _)) h

/-! ## Properties of the hook -/

theorem setData_some (entry e' : Entry) (k : GoString) (v : Value)
    (h : entry.setData k v = some e') :
    ∃ m, entry.DataMap = some m ∧ e' = { entry with DataMap := some (GoMap.set m k v) } := by
  unfold Entry.setData at h
  cases hd : entry.DataMap with
  | none => rw [hd] at h; cases h
  | some m =>
    rw [hd] at h
    exact ⟨m, rfl, (Option.some.inj h).symm⟩

theorem setData_frame (entry e' : Entry) (k : GoString) (v : Value)
    (h : entry.setData k v = some e') :
    e'.Message = entry.Message ∧ e'.Level = entry.Level ∧ e'.Caller = entry.Caller ∧
    e'.Logger = entry.Logger ∧
    ∀ k', k' ≠ k → GoMap.get? e'.Data k' = GoMap.get? entry.Data k' := by
  obtain ⟨m, hm, rfl⟩ := setData_some entry e' k v h
  refine ⟨rfl, rfl, rfl, rfl, ?_⟩
  intro k' hk
  simp only [Entry.Data, hm, Option.getD_some]
  exact get?_set_ne m k k' v hk

theorem setCaller_frame (hook : JournalHook) (entry e' : Entry)
    (h : hook.setCaller entry = some e') :
    e'.Message = entry.Message ∧ e'.Level = entry.Level ∧
    ∀ k, k ≠ lit "func" → k ≠ lit "file" →
      GoMap.get? e'.Data k = GoMap.get? entry.Data k := by
  unfold JournalHook.setCaller at h
  split at h
  · split at h
    · cases h; exact ⟨rfl, rfl, fun _ _ _ => rfl⟩
    · dsimp only at h
      split at h
      · cases h
      · rename_i caller _ e1 h1
        have f1 : e1.Message = entry.Message ∧ e1.Level = entry.Level ∧
            ∀ k, k ≠ lit "func" → GoMap.get? e1.Data k = GoMap.get? entry.Data k := by
          split at h1
          · have := setData_frame _ _ _ _ h1
            exact ⟨this.1, this.2.1, this.2.2.2.2⟩
          · cases h1; exact ⟨rfl, rfl, fun _ _ => rfl⟩
        have f2 : e'.Message = e1.Message ∧ e'.Level = e1.Level ∧
            ∀ k, k ≠ lit "file" → GoMap.get? e'.Data k = GoMap.get? e1.Data k := by
          split at h
          · have := setData_frame _ _ _ _ h
            exact ⟨this.1, this.2.1, this.2.2.2.2⟩
          · cases h; exact ⟨rfl, rfl, fun _ _ => rfl⟩
        exact ⟨f2.1.trans f1.1, f2.2.1.trans f1.2.1,
          fun k hk1 hk2 => (f2.2.2 k hk2).trans (f1.2.2 k hk1)⟩
  · cases h; exact ⟨rfl, rfl, fun _ _ _ => rfl⟩

theorem Fire_of_setCaller_some (hook : JournalHook)
    (range : GoMap GoString Value → List (GoString × Value)) (j : Journal)
    (entry e' : Entry) (h : hook.setCaller entry = some e') :
    (hook.Fire range j entry).journal.sent =
      j.sent ++ [⟨entry.Message, GoMap.index 0 severityMap entry.Level,
        stringifyEntries range e'.Data⟩] ∧
    (hook.Fire range j entry).outcome =
      Outcome.returned (j.respond j.sent ⟨entry.Message,
        GoMap.index 0 severityMap entry.Level, stringifyEntries range e'.Data⟩) ∧
    (hook.Fire range j entry).journal.respond = j.respond ∧
    (hook.Fire range j entry).entry = e' := by
  obtain ⟨hm, hl, _⟩ := setCaller_frame hook entry e' h
  simp [JournalHook.Fire, h, journal.Send, hm, hl]

theorem Fire_of_setCaller_none (hook : JournalHook)
    (range : GoMap GoString Value → List (GoString × Value)) (j : Journal)
    (entry : Entry) (h : hook.setCaller entry = none) :
    (hook.Fire range j entry).outcome = Outcome.panicked ∧
    (hook.Fire range j entry).journal.sent = j.sent ∧
    (hook.Fire range j entry).entry = entry := by
  simp [JournalHook.Fire, h]

/-! ## Properties of `stringifyEntries` -/

theorem perm_pair_cases {α : Type} {l : List α} {a b : α} (h : l.Perm [a, b]) :
    l = [a, b] ∨ l = [b, a] := by
  have hlen := h.length_eq
  rcases l with _ | ⟨x, _ | ⟨y, _ | ⟨z, rest⟩⟩⟩ <;> simp at hlen
  have hx : x ∈ [a, b] := h.subset (List.mem_cons_self x _)
  simp only [List.mem_cons, List.mem_singleton, List.not_mem_nil, or_false] at hx
  rcases hx with rfl | rfl
  · left
    have h1 := List.Perm.cons_inv h
    rw [List.perm_singleton] at h1
    rw [h1]
  · right
    have h1 := List.Perm.cons_inv (h.trans (List.Perm.swap x a []))
    rw [List.perm_singleton] at h1
    rw [h1]

theorem set_filter {V : Type} (q : GoString → Bool) (m : GoMap GoString V) (k : GoString)
    (v : V) :
    (GoMap.set m k v).filter (fun p => q p.1) =
      if q k = true then GoMap.set (m.filter (fun p => q p.1)) k v
      else m.filter (fun p => q p.1) := by
  unfold GoMap.set
  by_cases hk : q k = true
  · simp only [hk, if_true, List.filter_cons, List.filter_filter]
    congr 1
    apply List.filter_congr
    intro x _
    exact Bool.and_comm _ _
  · simp only [hk, List.filter_cons, List.filter_filter]
    simp only [Bool.false_eq_true, if_false]
    apply List.filter_congr
    intro x _
    by_cases hx : x.1 = k
    · simp [hx, hk]
    · simp [hx]

theorem foldl_set_filter (q : GoString → Bool) (l : List (GoString × Value)) :
    ∀ acc : GoMap GoString GoString,
      (l.foldl (fun entries kv => GoMap.set entries (stringifyKey kv.1) (fmtSprint kv.2))
          acc).filter (fun p => q p.1) =
        (l.filter (fun kv => q (stringifyKey kv.1))).foldl
          (fun entries kv => GoMap.set entries (stringifyKey kv.1) (fmtSprint kv.2))
          (acc.filter (fun p => q p.1)) := by
  induction l with
  | nil => intro acc; rfl
  | cons kv rest ih =>
    intro acc
    rw [List.foldl_cons, ih, set_filter, List.filter_cons]
    by_cases hk : q (stringifyKey kv.1) = true
    · simp only [hk, if_true, List.foldl_cons]
    · simp only [hk, if_false]
      simp

theorem stringifyEntries_eq_foldl (range : GoMap GoString Value → List (GoString × Value))
    (data : GoMap GoString Value) :
    stringifyEntries range data =
      (range data).foldl
        (fun entries kv => GoMap.set entries (stringifyKey kv.1) (fmtSprint kv.2)) [] :=
  rfl

theorem fmtSprintf_s_d_ne_empty (file : GoString) (line : Int) :
    fmtSprintf_s_d file line ≠ lit "" := by
  have h : lit ":" = [58] := by decide
  have h0 : lit "" = [] := by decide
  rw [h0, fmtSprintf_s_d, h]
  cases file <;> simp

theorem setCaller_Data (hook : JournalHook) (entry : Entry) (fr : Frame)
    (m : GoMap GoString Value)
    (hcaller : entry.HasCaller = true) (hfr : entry.Caller = some fr)
    (hfn : fr.Function ≠ lit "") (hm : entry.DataMap = some m) :
    hook.setCaller entry =
      some { entry with
        DataMap := some (GoMap.set (GoMap.set m (lit "func") (Value.str fr.Function))
          (lit "file") (Value.str (fmtSprintf_s_d fr.File fr.Line))) } := by
  unfold JournalHook.setCaller
  simp only [hcaller, if_true, hfr]
  simp [hfn, fmtSprintf_s_d_ne_empty, Entry.setData, hm, hfr]

theorem setCaller_Data_fresh (hook : JournalHook) (entry : Entry) (fr : Frame)
    (m : GoMap GoString Value)
    (hcaller : entry.HasCaller = true) (hfr : entry.Caller = some fr)
    (hfn : fr.Function ≠ lit "") (hm : entry.DataMap = some m)
    (hfresh : ∀ kv ∈ m,
      stringifyKey kv.1 ≠ lit "FUNC" ∧ stringifyKey kv.1 ≠ lit "FILE") :
    hook.setCaller entry =
      some { entry with
        DataMap := some ((lit "file", Value.str (fmtSprintf_s_d fr.File fr.Line)) ::
          (lit "func", Value.str fr.Function) :: m) } := by
  have hfunc : stringifyKey (lit "func") = lit "FUNC" := by decide
  have hfile : stringifyKey (lit "file") = lit "FILE" := by decide
  have hne : lit "func" ≠ lit "file" := by decide
  have h1 : m.filter (fun p => decide (p.1 ≠ lit "func")) = m := by
    rw [List.filter_eq_self]
    intro kv hkv
    have := (hfresh kv hkv).1
    simp only [decide_eq_true_eq]
    intro hc; rw [hc] at this; exact this hfunc
  have h2 : m.filter (fun p => decide (p.1 ≠ lit "file")) = m := by
    rw [List.filter_eq_self]
    intro kv hkv
    have := (hfresh kv hkv).2
    simp only [decide_eq_true_eq]
    intro hc; rw [hc] at this; exact this hfile
  rw [setCaller_Data hook entry fr m hcaller hfr hfn hm]
  simp only [GoMap.set, h1, List.filter_cons, h2]
  simp [hne]

theorem setCaller_of_not_HasCaller (hook : JournalHook) (entry : Entry)
    (h : entry.HasCaller = false) : hook.setCaller entry = some entry := by
  simp [JournalHook.setCaller, h]

theorem setCaller_of_nil (hook : JournalHook) (entry : Entry)
    (hcaller : entry.HasCaller = true) (hnil : entry.DataMap = none) :
    hook.setCaller entry = none := by
  have hc : ∃ fr, entry.Caller = some fr := by
    unfold Entry.HasCaller at hcaller
    cases hl : entry.Logger with
    | none => rw [hl] at hcaller; cases hcaller
    | some lg =>
      rw [hl] at hcaller
      simp only [Bool.and_eq_true] at hcaller
      exact Option.isSome_iff_exists.1 hcaller.2
  obtain ⟨fr, hfr⟩ := hc
  unfold JournalHook.setCaller
  simp only [hcaller, if_true, hfr]
  by_cases hfn : fr.Function = lit ""
  · simp [hfn, fmtSprintf_s_d_ne_empty, Entry.setData, hnil]
  · simp [hfn, Entry.setData, hnil]

theorem setCaller_isSome (hook : JournalHook) (entry : Entry)
    (h : entry.DataMap ≠ none ∨ entry.HasCaller = false) :
    ∃ e', hook.setCaller entry = some e' := by
  by_cases hcaller : entry.HasCaller = true
  · rcases h with h | h
    · obtain ⟨m, hm⟩ := Option.ne_none_iff_exists'.1 h
      unfold JournalHook.setCaller
      simp only [hcaller, if_true]
      cases hcr : entry.Caller with
      | none => exact ⟨entry, rfl⟩
      | some fr =>
        by_cases hfn : fr.Function = lit ""
        · simp [hfn, Entry.setData, hm, fmtSprintf_s_d_ne_empty]
        · simp [hfn, Entry.setData, hm, fmtSprintf_s_d_ne_empty]
    · rw [h] at hcaller; cases hcaller
  · exact ⟨entry, setCaller_of_not_HasCaller hook entry (by simpa using hcaller)⟩

/-! ## Properties of the loop of `stringifyEntries` -/

theorem foldl_set_mem (l : List (GoString × Value)) :
    ∀ (acc : GoMap GoString GoString) (p : GoString × GoString),
      p ∈ l.foldl (fun entries kv => GoMap.set entries (stringifyKey kv.1) (fmtSprint kv.2))
          acc →
      p ∈ acc ∨ ∃ kv ∈ l, p = (stringifyKey kv.1, fmtSprint kv.2) := by
  induction l with
  | nil => intro acc p hp; exact Or.inl hp
  | cons a rest ih =>
    intro acc p hp
    rw [List.foldl_cons] at hp
    rcases ih _ p hp with h | ⟨kv, hkv, rfl⟩
    · rcases mem_set _ _ _ _ h with h | h
      · exact Or.inr ⟨a, List.mem_cons_self _ _, h⟩
      · exact Or.inl h
    · exact Or.inr ⟨kv, List.mem_cons_of_mem _ hkv, rfl⟩

theorem foldl_set_keys (l : List (GoString × Value)) :
    ∀ (acc : GoMap GoString GoString) (k : GoString),
      k ∈ GoMap.keys
          (l.foldl (fun entries kv => GoMap.set entries (stringifyKey kv.1) (fmtSprint kv.2))
            acc) ↔
      k ∈ GoMap.keys acc ∨ ∃ kv ∈ l, stringifyKey kv.1 = k := by
  induction l with
  | nil => intro acc k; simp
  | cons a rest ih =>
    intro acc k
    rw [List.foldl_cons, ih, mem_keys_set]
    simp only [List.mem_cons, exists_eq_or_imp]
    constructor
    · rintro ((h | h) | h)
      · exact Or.inr (Or.inl h.symm)
      · exact Or.inl h
      · exact Or.inr (Or.inr h)
    · rintro (h | h | h)
      · exact Or.inl (Or.inr h)
      · exact Or.inl (Or.inl h.symm)
      · exact Or.inr h

theorem foldl_set_nodup (l : List (GoString × Value)) :
    ∀ (acc : GoMap GoString GoString), (GoMap.keys acc).Nodup →
      (GoMap.keys
        (l.foldl (fun entries kv => GoMap.set entries (stringifyKey kv.1) (fmtSprint kv.2))
          acc)).Nodup := by
  induction l with
  | nil => intro acc h; exact h
  | cons a rest ih =>
    intro acc h
    rw [List.foldl_cons]
    exact ih _ (nodup_keys_set _ _ _ h)

theorem foldl_set_get? (l : List (GoString × Value)) (k v : GoString)
    (hv : ∀ kv ∈ l, stringifyKey kv.1 = k → fmtSprint kv.2 = v) :
    ∀ (acc : GoMap GoString GoString),
      (GoMap.get? acc k = some v ∨ ∃ kv ∈ l, stringifyKey kv.1 = k) →
      GoMap.get?
        (l.foldl (fun entries kv => GoMap.set entries (stringifyKey kv.1) (fmtSprint kv.2))
          acc) k = some v := by
  induction l with
  | nil =>
    intro acc h
    rcases h with h | ⟨kv, hkv, _⟩
    · exact h
    · cases hkv
  | cons a rest ih =>
    intro acc h
    rw [List.foldl_cons]
    apply ih (fun kv hkv => hv kv (List.mem_cons_of_mem _ hkv))
    by_cases ha : stringifyKey a.1 = k
    · left
      rw [ha, hv a (List.mem_cons_self _ _) ha]
      exact get?_set_self _ _ _
    · rcases h with h | ⟨kv, hkv, hk⟩
      · left
        rw [get?_set_ne _ _ _ _ (Ne.symm ha)]
        exact h
      · right
        rcases List.mem_cons.1 hkv with rfl | hkv
        · exact absurd hk ha
        · exact ⟨kv, hkv, hk⟩

theorem mem_of_get? {K V : Type} [DecidableEq K] (m : GoMap K V) (k : K) (v : V)
    (h : GoMap.get? m k = some v) : (k, v) ∈ m := by
  induction m with
  | nil => simp [GoMap.get?] at h
  | cons p rest ih =>
    obtain ⟨a, b⟩ := p
    by_cases ha : a = k
    · simp only [GoMap.get?, ha, if_true, Option.some.injEq] at h
      rw [ha, h]
      exact List.mem_cons_self _ _
    · simp only [GoMap.get?, ha, if_false] at h
      exact List.mem_cons_of_mem _ (ih h)

theorem get?_of_mem_nodup {K V : Type} [DecidableEq K] (m : GoMap K V) (k : K) (v : V)
    (hn : (GoMap.keys m).Nodup) (h : (k, v) ∈ m) : GoMap.get? m k = some v := by
  induction m with
  | nil => cases h
  | cons p rest ih =>
    obtain ⟨a, b⟩ := p
    simp only [GoMap.keys, List.map_cons, List.nodup_cons] at hn
    rcases List.mem_cons.1 h with heq | hmem
    · simp only [Prod.mk.injEq] at heq
      simp [GoMap.get?, heq.1, heq.2]
    · have hak : a ≠ k := by
        intro hc
        apply hn.1
        rw [hc]
        exact List.mem_map.2 ⟨(k, v), hmem, rfl⟩
      simp only [GoMap.get?, hak, if_false]
      exact ih hn.2 hmem

theorem mem_stringifyKey_ident (key : GoString) :
    ∀ b ∈ stringifyKey key, identByte b := by
  intro b hb
  rw [stringifyKey_eq] at hb
  have hall := mapLoop_stringifyOp_ident key 0
  split_ifs at hb
  · exact hall b (List.mem_of_mem_tail hb)
  · exact hall b hb

theorem mapLoop_ident_id (s : GoString) (h : ∀ b ∈ s, identByte b) :
    strings.mapLoop stringifyOp 0 s = s := by
  induction s with
  | nil => rfl
  | cons c rest ih =>
    have hc : identByte c := h c (List.mem_cons_self _ _)
    have hlt : c < 0x80 := by unfold identByte at hc; omega
    have hd : DecodeRuneInString (c :: rest) = (Int.ofNat c, 1) := by
      simp [DecodeRuneInString, hlt]
    have hop : stringifyOp (Int.ofNat c) = Int.ofNat c := by
      simp only [Int.ofNat_eq_coe]
      unfold stringifyOp Rune
      unfold identByte at hc
      split_ifs <;> omega
    have h0 : (0 : Int) ≤ Int.ofNat c := Int.ofNat_nonneg c
    have h1 : Int.ofNat c ≤ 127 := by
      have : (c : Int) ≤ 127 := by omega
      exact this
    simp only [strings.mapLoop, hd, hop, ge_iff_le, h0, if_true, encodeRune_ascii _ h0 h1,
      Nat.sub_self, List.singleton_append]
    rw [ih (fun b hb => h b (List.mem_cons_of_mem _ hb))]
    simp

theorem stringifyKey_of_ident (key : GoString) (hident : ∀ b ∈ key, identByte b)
    (hhead : strings.HasPrefix key (lit "_") = false) : stringifyKey key = key := by
  have hm : strings.Map stringifyOp key = key := mapLoop_ident_id key hident
  simp only [stringifyKey, hm, hhead]
  simp

theorem LevelHooks_Add_keeps (hook : JournalHook) (h : Hook) (l : Level) (ls : List Level) :
    ∀ hooks : GoMap Level (List Hook), h ∈ GoMap.index [] hooks l →
      h ∈ GoMap.index []
        (ls.foldl
          (fun hooks level =>
            hooks.set level (GoMap.index [] hooks level ++ [Hook.journalHook hook]))
          hooks) l := by
  induction ls with
  | nil => intro hooks hh; exact hh
  | cons l0 rest ih =>
    intro hooks hh
    rw [List.foldl_cons]
    apply ih
    by_cases hl : l = l0
    · subst hl
      simp only [GoMap.index, get?_set_self, Option.getD_some, List.mem_append]
      exact Or.inl hh
    · simpa only [GoMap.index, get?_set_ne _ _ _ _ hl] using hh

theorem LevelHooks_Add_mem (hook : JournalHook) (l : Level) (ls : List Level) :
    ∀ hooks : GoMap Level (List Hook), l ∈ ls →
      Hook.journalHook hook ∈ GoMap.index []
        (ls.foldl
          (fun hooks level =>
            hooks.set level (GoMap.index [] hooks level ++ [Hook.journalHook hook]))
          hooks) l := by
  induction ls with
  | nil => intro hooks hl; cases hl
  | cons l0 rest ih =>
    intro hooks hl
    rw [List.foldl_cons]
    by_cases h0 : l = l0
    · subst h0
      apply LevelHooks_Add_keeps
      simp [GoMap.index, get?_set_self]
    · rcases List.mem_cons.1 hl with h | h
      · exact absurd h h0
      · exact ih _ h

/-! ## The claims -/

/-- C1: for every key, every byte of `stringifyKey key` is an uppercase letter `A`-`Z`, a
digit `0`-`9` or an underscore. -/
theorem stringifyKey_charset (key : GoString) :
    ∀ b ∈ stringifyKey key, identByte b := by
  intro b hb
  rw [stringifyKey_eq] at hb
  have hall := mapLoop_stringifyOp_ident key 0
  split_ifs at hb
  · exact hall b (List.mem_of_mem_tail hb)
  · exact hall b hb

theorem stringifyKey_charset_witness :
    70 ∈ stringifyKey (lit "foo-bar") ∧ identByte 70 :=
  ⟨by decide, stringifyKey_charset (lit "foo-bar") 70 (by decide)⟩

/-- C4: `stringifyKey` strips exactly one leading underscore: with `t` the per-character
transform of the key, the result is `t` without its first byte when `t` begins with an
underscore and `t` otherwise; the result begins with an underscore exactly when `t` begins
with two underscores. -/
theorem stringifyKey_strips_one (key : GoString) :
    (stringifyKey key =
      if strings.HasPrefix (strings.Map stringifyOp key) (lit "_")
      then (strings.Map stringifyOp key).drop 1
      else strings.Map stringifyOp key) ∧
    (strings.HasPrefix (stringifyKey key) (lit "_") = true ↔
      strings.HasPrefix (strings.Map stringifyOp key) (lit "__") = true) := by
  have h2 : lit "__" = [95, 95] := by decide
  rw [stringifyKey_eq, lit_underscore, h2]
  generalize strings.Map stringifyOp key = t
  rcases t with _ | ⟨a, _ | ⟨b, rest⟩⟩
  · simp [strings.HasPrefix]
  · by_cases ha : a = 95 <;> simp [strings.HasPrefix, ha]
  · by_cases ha : a = 95 <;> by_cases hb : b = 95 <;> simp [strings.HasPrefix, ha, hb]

/-- C5: `stringifyKey("foo-bar")` is `"FOO_BAR"`. -/
theorem stringifyKey_foo_bar : stringifyKey (lit "foo-bar") = lit "FOO_BAR" := by
  decide

/-- C6, as stated, fails: `stringifyKey("_internal")` is not `"internal"` and
`stringifyKey("__internal")` is not `"_internal"` (the letters are upper-cased). -/
theorem stringifyKey_internal_not_lowercase :
    ¬ (stringifyKey (lit "_internal") = lit "internal" ∧
       stringifyKey (lit "__internal") = lit "_internal") := by
  decide

/-- C6, amended: `stringifyKey("_internal")` is `"INTERNAL"` (one leading underscore
stripped) and `stringifyKey("__internal")` is `"_INTERNAL"` (only one stripped). -/
theorem stringifyKey_internal :
    stringifyKey (lit "_internal") = lit "INTERNAL" ∧
    stringifyKey (lit "__internal") = lit "_INTERNAL" := by
  decide

/-- C2, failing input: for the metadata `{"__x": 1}` the hook sends the journal a variable
named `_X`, which begins with an underscore. -/
theorem Fire_sends_leading_underscore :
    ((JournalHook.mk).Fire id quietJournal
        ⟨none, some [(lit "__x", Value.int 1)], InfoLevel, none, lit "m"⟩).journal.sent =
      [⟨lit "m", PriInfo, [(lit "_X", lit "1")]⟩] ∧
    stringifyEntries id [(lit "__x", Value.int 1)] = [(lit "_X", lit "1")] ∧
    strings.HasPrefix (lit "_X") (lit "_") = true := by
  decide

/-- C3, failing input: the key `__a` is transformed to `__A`, which does not consist
entirely of underscores, and yet `stringifyKey` returns `_A`, which begins with one. -/
theorem stringifyKey_leading_underscore_remains :
    strings.Map stringifyOp (lit "__a") = lit "__A" ∧
    ¬ (∀ b ∈ strings.Map stringifyOp (lit "__a"), b = 95) ∧
    stringifyKey (lit "__a") = lit "_A" ∧
    strings.HasPrefix (stringifyKey (lit "__a")) (lit "_") = true := by
  decide

/-- C7, as stated, fails: an entry built by hand with caller info and the nil map as
metadata makes `setCaller` panic on its first assignment, so `Fire` at level Error panics
and sends nothing, in particular no call with `PriErr`. -/
theorem Fire_nil_data_sends_no_priority :
    (nilDataEntry ErrorLevel).HasCaller = true ∧
    (nilDataEntry ErrorLevel).DataMap = none ∧
    ((JournalHook.mk).Fire id quietJournal (nilDataEntry ErrorLevel)).outcome =
      Outcome.panicked ∧
    ((JournalHook.mk).Fire id quietJournal (nilDataEntry ErrorLevel)).journal.sent = [] ∧
    ¬ ∃ vars, ((JournalHook.mk).Fire id quietJournal (nilDataEntry ErrorLevel)).journal.sent =
      quietJournal.sent ++ [⟨(nilDataEntry ErrorLevel).Message, PriErr, vars⟩] := by
  have hs : ((JournalHook.mk).Fire id quietJournal (nilDataEntry ErrorLevel)).journal.sent =
      [] := by decide
  refine ⟨by decide, by decide, by decide, hs, ?_⟩
  rintro ⟨vars, h⟩
  rw [hs] at h
  simp [quietJournal] at h

/-- C7, amended: the severity map has an entry for each of the six levels, and for every
entry whose metadata is not the nil map, or that carries no caller info, `Fire` sends
exactly one call, whose priority is the mapped one: Debug to PriDebug, Info to PriInfo,
Warn to PriWarning, Error to PriErr, Fatal to PriCrit, Panic to PriEmerg, whatever the
message and the metadata of the entry. -/
theorem Fire_priority_defined (hook : JournalHook)
    (range : GoMap GoString Value → List (GoString × Value)) (j : Journal) (entry : Entry)
    (l : Level) (p : Priority)
    (hlp : (l, p) ∈ [(DebugLevel, PriDebug), (InfoLevel, PriInfo), (WarnLevel, PriWarning),
      (ErrorLevel, PriErr), (FatalLevel, PriCrit), (PanicLevel, PriEmerg)])
    (hl : entry.Level = l)
    (hdata : entry.DataMap ≠ none ∨ entry.HasCaller = false) :
    severityMap.get? l = some p ∧
    ∃ e', hook.setCaller entry = some e' ∧
      (hook.Fire range j entry).outcome =
        Outcome.returned (j.respond j.sent
          ⟨entry.Message, p, stringifyEntries range e'.Data⟩) ∧
      (hook.Fire range j entry).journal.sent =
        j.sent ++ [⟨entry.Message, p, stringifyEntries range e'.Data⟩] := by
  have hget : severityMap.get? l = some p := by
    simp only [List.mem_cons, Prod.mk.injEq, List.mem_singleton, List.not_mem_nil,
      or_false] at hlp
    rcases hlp with h | h | h | h | h | h <;> (obtain ⟨rfl, rfl⟩ := h; decide)
  obtain ⟨e', he⟩ := setCaller_isSome hook entry hdata
  have hp : GoMap.index 0 severityMap entry.Level = p := by
    rw [hl, GoMap.index, hget]; rfl
  obtain ⟨h1, h2, _, _⟩ := Fire_of_setCaller_some hook range j entry e' he
  rw [hp] at h1 h2
  exact ⟨hget, e', he, h2, h1⟩

theorem Fire_priority_defined_witness :
    (ErrorLevel, PriErr) ∈ [(DebugLevel, PriDebug), (InfoLevel, PriInfo),
      (WarnLevel, PriWarning), (ErrorLevel, PriErr), (FatalLevel, PriCrit),
      (PanicLevel, PriEmerg)] ∧
    sampleEntry.Level = ErrorLevel ∧
    (sampleEntry.DataMap ≠ none ∨ sampleEntry.HasCaller = false) ∧
    (severityMap.get? ErrorLevel = some PriErr ∧
     ∃ e', (JournalHook.mk).setCaller sampleEntry = some e' ∧
      ((JournalHook.mk).Fire id quietJournal sampleEntry).outcome =
        Outcome.returned (quietJournal.respond quietJournal.sent
          ⟨sampleEntry.Message, PriErr, stringifyEntries id e'.Data⟩) ∧
      ((JournalHook.mk).Fire id quietJournal sampleEntry).journal.sent =
        quietJournal.sent ++
          [⟨sampleEntry.Message, PriErr, stringifyEntries id e'.Data⟩]) :=
  ⟨by decide, rfl, Or.inl (by decide),
    Fire_priority_defined JournalHook.mk id quietJournal sampleEntry ErrorLevel PriErr
      (by decide) rfl (Or.inl (by decide))⟩

/-- C8, as stated, fails: an entry built by hand with the Trace level, caller info and the
nil map as metadata makes `setCaller` panic, so `Fire` sends nothing, in particular no call
with the zero-value priority. -/
theorem Fire_nil_data_sends_no_default :
    TraceLevel ∉ [PanicLevel, FatalLevel, ErrorLevel, WarnLevel, InfoLevel, DebugLevel] ∧
    (nilDataEntry TraceLevel).HasCaller = true ∧
    (nilDataEntry TraceLevel).DataMap = none ∧
    ((JournalHook.mk).Fire id quietJournal (nilDataEntry TraceLevel)).outcome =
      Outcome.panicked ∧
    ((JournalHook.mk).Fire id quietJournal (nilDataEntry TraceLevel)).journal.sent = [] ∧
    ¬ ∃ vars, ((JournalHook.mk).Fire id quietJournal (nilDataEntry TraceLevel)).journal.sent =
      quietJournal.sent ++ [⟨(nilDataEntry TraceLevel).Message, PriEmerg, vars⟩] := by
  have hs : ((JournalHook.mk).Fire id quietJournal (nilDataEntry TraceLevel)).journal.sent =
      [] := by decide
  refine ⟨by decide, by decide, by decide, by decide, hs, ?_⟩
  rintro ⟨vars, h⟩
  rw [hs] at h
  simp [quietJournal] at h

/-- C8, amended: for an entry whose level is none of the six defined levels, and whose
metadata is not the nil map or that carries no caller info, the severity map has no entry
and `Fire` sends the zero value of the priority type, which is `PriEmerg`. -/
theorem Fire_priority_undefined (hook : JournalHook)
    (range : GoMap GoString Value → List (GoString × Value)) (j : Journal) (entry : Entry)
    (hl : entry.Level ∉ [PanicLevel, FatalLevel, ErrorLevel, WarnLevel, InfoLevel,
      DebugLevel])
    (hdata : entry.DataMap ≠ none ∨ entry.HasCaller = false) :
    severityMap.get? entry.Level = none ∧
    (∃ e', hook.setCaller entry = some e' ∧
      (hook.Fire range j entry).outcome =
        Outcome.returned (j.respond j.sent
          ⟨entry.Message, PriEmerg, stringifyEntries range e'.Data⟩) ∧
      (hook.Fire range j entry).journal.sent =
        j.sent ++ [⟨entry.Message, PriEmerg, stringifyEntries range e'.Data⟩]) ∧
    PriEmerg = (0 : Priority) := by
  have hget : severityMap.get? entry.Level = none := by
    simp only [List.mem_cons, List.mem_singleton, List.not_mem_nil, or_false, not_or] at hl
    obtain ⟨h0, h1, h2, h3, h4, h5⟩ := hl
    simp [severityMap, GoMap.get?, Ne.symm h0, Ne.symm h1, Ne.symm h2, Ne.symm h3,
      Ne.symm h4, Ne.symm h5]
  obtain ⟨e', he⟩ := setCaller_isSome hook entry hdata
  have hp : GoMap.index 0 severityMap entry.Level = PriEmerg := by
    rw [GoMap.index, hget]; rfl
  obtain ⟨h1, h2, _, _⟩ := Fire_of_setCaller_some hook range j entry e' he
  rw [hp] at h1 h2
  exact ⟨hget, ⟨e', he, h2, h1⟩, rfl⟩

theorem Fire_priority_undefined_witness :
    TraceLevel ∉ [PanicLevel, FatalLevel, ErrorLevel, WarnLevel, InfoLevel, DebugLevel] ∧
    ((⟨some ⟨true⟩, some [], TraceLevel, some sampleFrame, lit "t"⟩ : Entry).DataMap ≠ none ∨
      (⟨some ⟨true⟩, some [], TraceLevel, some sampleFrame, lit "t"⟩ : Entry).HasCaller =
        false) ∧
    (severityMap.get? TraceLevel = none ∧
     (∃ e', (JournalHook.mk).setCaller
          ⟨some ⟨true⟩, some [], TraceLevel, some sampleFrame, lit "t"⟩ = some e' ∧
      ((JournalHook.mk).Fire id quietJournal
          ⟨some ⟨true⟩, some [], TraceLevel, some sampleFrame, lit "t"⟩).outcome =
        Outcome.returned (quietJournal.respond quietJournal.sent
          ⟨lit "t", PriEmerg, stringifyEntries id e'.Data⟩) ∧
      ((JournalHook.mk).Fire id quietJournal
          ⟨some ⟨true⟩, some [], TraceLevel, some sampleFrame, lit "t"⟩).journal.sent =
        quietJournal.sent ++ [⟨lit "t", PriEmerg, stringifyEntries id e'.Data⟩]) ∧
     PriEmerg = (0 : Priority)) :=
  ⟨by decide, Or.inl (by decide),
    Fire_priority_undefined JournalHook.mk id quietJournal
      ⟨some ⟨true⟩, some [], TraceLevel, some sampleFrame, lit "t"⟩ (by decide)
      (Or.inl (by decide))⟩

/-- C9: `Levels` returns exactly the six severities in the order Panic, Fatal, Error, Warn,
Info, Debug, without duplicates and without the Trace level, for every hook. -/
theorem Levels_eq (hook : JournalHook) :
    hook.Levels = [PanicLevel, FatalLevel, ErrorLevel, WarnLevel, InfoLevel, DebugLevel] ∧
    hook.Levels.Nodup ∧ hook.Levels.length = 6 ∧
    (∀ l : Level, l ∈ hook.Levels ↔ l ≤ DebugLevel) := by
  refine ⟨rfl, ?_, rfl, ?_⟩
  · show List.Nodup [PanicLevel, FatalLevel, ErrorLevel, WarnLevel, InfoLevel, DebugLevel]
    decide
  · intro l
    simp only [JournalHook.Levels, PanicLevel, FatalLevel, ErrorLevel, WarnLevel, InfoLevel,
      DebugLevel, List.mem_cons, List.mem_singleton, List.not_mem_nil, or_false]
    unfold Level at *
    omega

/-- C10, as stated, fails: when the metadata already has the key `func`, the caller's
function name replaces it, so the fields sent are not the sanitized original metadata plus
two entries, under any order of iteration. (And when the metadata has the key `FUNC`, which
collides with `func` after sanitisation, the order `file`, `func`, `FUNC` of iteration sends
`FUNC` with the original value, not the function name; and when the metadata is the nil
map, `Fire` panics and sends nothing.) -/
theorem Fire_caller_not_two_extra :
    (¬ ∃ o : List (GoString × Value),
      o.Perm [(lit "func", Value.str (lit "x"))] ∧
      ∃ call, ((JournalHook.mk).Fire id quietJournal
          ⟨some ⟨true⟩, some [(lit "func", Value.str (lit "x"))], ErrorLevel,
            some ⟨lit "main.f", lit "a.go", 7⟩, lit "boom"⟩).journal.sent = [call] ∧
        call.vars.Perm ((lit "FUNC", lit "main.f") :: (lit "FILE", lit "a.go:7") ::
          stringifyEntries (fun _ => o) [(lit "func", Value.str (lit "x"))])) ∧
    ((JournalHook.mk).Fire id quietJournal
        ⟨some ⟨true⟩, some [(lit "FUNC", Value.str (lit "x"))], ErrorLevel,
          some ⟨lit "main.f", lit "a.go", 7⟩, lit "boom"⟩).journal.sent =
      [⟨lit "boom", PriErr, [(lit "FUNC", lit "x"), (lit "FILE", lit "a.go:7")]⟩] ∧
    ((JournalHook.mk).Fire id quietJournal (nilDataEntry InfoLevel)).outcome =
      Outcome.panicked ∧
    ((JournalHook.mk).Fire id quietJournal (nilDataEntry InfoLevel)).journal.sent = [] := by
  refine ⟨?_, by decide, by decide, by decide⟩
  rintro ⟨o, ho, call, hsent, hperm⟩
  rw [List.perm_singleton] at ho
  subst ho
  have hs : ((JournalHook.mk).Fire id quietJournal
      ⟨some ⟨true⟩, some [(lit "func", Value.str (lit "x"))], ErrorLevel,
        some ⟨lit "main.f", lit "a.go", 7⟩, lit "boom"⟩).journal.sent =
      [⟨lit "boom", PriErr, [(lit "FUNC", lit "main.f"), (lit "FILE", lit "a.go:7")]⟩] := by
    decide
  rw [hs] at hsent
  simp only [List.cons.injEq, and_true] at hsent
  subst hsent
  have hlen := hperm.length_eq
  revert hlen
  decide

/-- C10, amended: for an entry that carries caller info with a non-empty function name and a
non-empty file path, and whose metadata is not the nil map and has no key that sanitizes to
`FUNC` or `FILE`, the fields `Fire` sends are, for some order of iteration over the original
metadata, its sanitized entries plus the two entries `FUNC` = the function name and `FILE` =
the path, a colon and the decimal line number. -/
theorem Fire_caller_fields (hook : JournalHook)
    (range : GoMap GoString Value → List (GoString × Value)) (j : Journal) (entry : Entry)
    (fr : Frame)
    (hrange : ∀ m, (range m).Perm m)
    (hcaller : entry.HasCaller = true) (hfr : entry.Caller = some fr)
    (hfn : fr.Function ≠ lit "") (hpath : fr.File ≠ lit "")
    (hdata : entry.DataMap ≠ none)
    (hfresh : ∀ kv ∈ entry.Data,
      stringifyKey kv.1 ≠ lit "FUNC" ∧ stringifyKey kv.1 ≠ lit "FILE") :
    ∃ (o : List (GoString × Value)) (vars : GoMap GoString GoString),
      o.Perm entry.Data ∧
      (hook.Fire range j entry).journal.sent =
        j.sent ++ [⟨entry.Message, GoMap.index 0 severityMap entry.Level, vars⟩] ∧
      vars.Perm ((lit "FUNC", fr.Function) ::
        (lit "FILE", fr.File ++ lit ":" ++ formatInt fr.Line) ::
        stringifyEntries (fun _ => o) entry.Data) ∧
      vars.length = (stringifyEntries (fun _ => o) entry.Data).length + 2 := by
  have hfunc : stringifyKey (lit "func") = lit "FUNC" := by decide
  have hfile : stringifyKey (lit "file") = lit "FILE" := by decide
  have hFF : lit "FUNC" ≠ lit "FILE" := by decide
  have _ := hpath
  obtain ⟨m, hm⟩ := Option.ne_none_iff_exists'.1 hdata
  have hmd : entry.Data = m := by simp [Entry.Data, hm]
  rw [hmd] at hfresh
  have hset := setCaller_Data_fresh hook entry fr m hcaller hfr hfn hm hfresh
  obtain ⟨hsent, _, _, _⟩ := Fire_of_setCaller_some hook range j entry _ hset
  generalize hd' : ((lit "file", Value.str (fmtSprintf_s_d fr.File fr.Line)) ::
    (lit "func", Value.str fr.Function) :: m) = d' at hset hsent
  have hde : ({ entry with DataMap := some d' } : Entry).Data = d' := rfl
  rw [hde] at hsent
  have hl := hrange d'
  generalize hldef : range d' = l at hl
  rw [← hd'] at hl
  rw [hmd]
  -- the keys that sanitize to `FUNC` or `FILE`
  let q : GoString → Bool := fun k => decide (k = lit "FUNC" ∨ k = lit "FILE")
  have hq1 : l.filter (fun kv => q (stringifyKey kv.1)) =
        [(lit "file", Value.str (fmtSprintf_s_d fr.File fr.Line)),
          (lit "func", Value.str fr.Function)] ∨
      l.filter (fun kv => q (stringifyKey kv.1)) =
        [(lit "func", Value.str fr.Function),
          (lit "file", Value.str (fmtSprintf_s_d fr.File fr.Line))] := by
    apply perm_pair_cases
    have h := hl.filter (fun kv => q (stringifyKey kv.1))
    have hnil : m.filter (fun kv => q (stringifyKey kv.1)) = [] := by
      rw [List.filter_eq_nil_iff]
      intro kv hkv
      have := hfresh kv hkv
      simp [q, this.1, this.2]
    rw [List.filter_cons_of_pos (by simp [q, hfile]),
      List.filter_cons_of_pos (by simp [q, hfunc]), hnil] at h
    exact h
  have hq2 : (l.filter (fun kv => !q (stringifyKey kv.1))).Perm m := by
    have h := hl.filter (fun kv => !q (stringifyKey kv.1))
    have hself : m.filter (fun kv => !q (stringifyKey kv.1)) = m := by
      rw [List.filter_eq_self]
      intro kv hkv
      have := hfresh kv hkv
      simp [q, this.1, this.2]
    rw [List.filter_cons_of_neg (by simp [q, hfile]),
      List.filter_cons_of_neg (by simp [q, hfunc]), hself] at h
    exact h
  refine ⟨l.filter (fun kv => !q (stringifyKey kv.1)),
    stringifyEntries range d', hq2, hsent, ?_⟩
  have hperm : (stringifyEntries range d').Perm
      ((lit "FUNC", fr.Function) ::
        (lit "FILE", fr.File ++ lit ":" ++ formatInt fr.Line) ::
        stringifyEntries (fun _ => l.filter (fun kv => !q (stringifyKey kv.1))) m) := by
    have hsplit := (List.filter_append_perm (fun p : GoString × GoString => q p.1)
      (stringifyEntries range d')).symm
    rw [stringifyEntries_eq_foldl, hldef] at hsplit ⊢
    have e1 := foldl_set_filter q l []
    have e2 := foldl_set_filter (fun k => !q k) l []
    simp only [List.filter_nil] at e1 e2
    rw [e1, e2] at hsplit
    refine hsplit.trans ?_
    rw [stringifyEntries_eq_foldl]
    rcases hq1 with h | h
    · rw [h]
      simp only [List.foldl_cons, List.foldl_nil, GoMap.set, List.filter_nil, List.filter_cons,
        hfunc, hfile, fmtSprint, fmtSprintf_s_d]
      simp [hFF.symm]
    · rw [h]
      simp only [List.foldl_cons, List.foldl_nil, GoMap.set, List.filter_nil, List.filter_cons,
        hfunc, hfile, fmtSprint, fmtSprintf_s_d]
      simp [hFF]
      exact List.Perm.swap _ _ _
  exact ⟨hperm, by simpa using hperm.length_eq⟩

theorem Fire_caller_fields_witness :
    (∀ m : GoMap GoString Value, (id m).Perm m) ∧
    sampleEntry.HasCaller = true ∧ sampleEntry.Caller = some sampleFrame ∧
    sampleFrame.Function ≠ lit "" ∧ sampleFrame.File ≠ lit "" ∧
    sampleEntry.DataMap ≠ none ∧
    (∀ kv ∈ sampleEntry.Data,
      stringifyKey kv.1 ≠ lit "FUNC" ∧ stringifyKey kv.1 ≠ lit "FILE") ∧
    ∃ (o : List (GoString × Value)) (vars : GoMap GoString GoString),
      o.Perm sampleEntry.Data ∧
      ((JournalHook.mk).Fire id quietJournal sampleEntry).journal.sent =
        quietJournal.sent ++
          [⟨sampleEntry.Message, GoMap.index 0 severityMap sampleEntry.Level, vars⟩] ∧
      vars.Perm ((lit "FUNC", sampleFrame.Function) ::
        (lit "FILE", sampleFrame.File ++ lit ":" ++ formatInt sampleFrame.Line) ::
        stringifyEntries (fun _ => o) sampleEntry.Data) ∧
      vars.length = (stringifyEntries (fun _ => o) sampleEntry.Data).length + 2 :=
  ⟨fun m => List.Perm.refl m, by decide, rfl, by decide, by decide, by decide, by decide,
    Fire_caller_fields JournalHook.mk id quietJournal sampleEntry sampleFrame
      (fun m => List.Perm.refl m) (by decide) rfl (by decide) (by decide) (by decide)
      (by decide)⟩

/-- C11, failing input: for a caller whose file path is the empty string, `setCaller` still
injects a `file` entry, with the value `:7` (the guard tests the formatted text, which is
never empty); for a caller whose function name is empty no `func` entry is injected. -/
theorem setCaller_empty_path_injects_file :
    ((JournalHook.mk).setCaller
        ⟨some ⟨true⟩, some [], InfoLevel, some ⟨lit "main.f", lit "", 7⟩, lit "m"⟩).map
        Entry.Data =
      some [(lit "file", Value.str (lit ":7")), (lit "func", Value.str (lit "main.f"))] ∧
    ((JournalHook.mk).setCaller
        ⟨some ⟨true⟩, some [], InfoLevel, some ⟨lit "", lit "a.go", 7⟩, lit "m"⟩).map
        Entry.Data =
      some [(lit "file", Value.str (lit "a.go:7"))] := by
  decide

/-- C12: `Fire` on the entry with message `boom`, level Error, metadata `{"user-id": 42}` and
no caller info calls the journal exactly with `("boom", PriErr, {"USER_ID": "42"})`; and for
every entry without caller info the message is passed unchanged, the priority is the mapped
level and the fields are `stringifyEntries` of the metadata of the entry. -/
theorem Fire_without_caller (hook : JournalHook)
    (range : GoMap GoString Value → List (GoString × Value)) (j : Journal) (entry : Entry)
    (logger : Option Logger)
    (hrange : ∀ m, (range m).Perm m) (hno : entry.HasCaller = false) :
    (hook.Fire range j ⟨logger, some [(lit "user-id", Value.int 42)], ErrorLevel, none,
        lit "boom"⟩).journal.sent =
      j.sent ++ [⟨lit "boom", PriErr, [(lit "USER_ID", lit "42")]⟩] ∧
    (hook.Fire range j entry).journal.sent =
      j.sent ++ [⟨entry.Message, GoMap.index 0 severityMap entry.Level,
        stringifyEntries range entry.Data⟩] := by
  constructor
  · have hc : (⟨logger, some [(lit "user-id", Value.int 42)], ErrorLevel, none,
        lit "boom"⟩ : Entry).HasCaller = false := by
      cases logger <;> simp [Entry.HasCaller]
    have hr : range [(lit "user-id", Value.int 42)] = [(lit "user-id", Value.int 42)] :=
      List.perm_singleton.1 (hrange _)
    rw [(Fire_of_setCaller_some hook range j _ _ (setCaller_of_not_HasCaller _ _ hc)).1]
    simp only [stringifyEntries_eq_foldl, Entry.Data, Option.getD_some, hr]
    have h1 : stringifyKey (lit "user-id") = lit "USER_ID" := by decide
    have h2 : fmtSprint (Value.int 42) = lit "42" := by decide
    have h3 : GoMap.index 0 severityMap ErrorLevel = PriErr := by decide
    simp [List.foldl, h1, h2, h3, GoMap.set]
  · exact (Fire_of_setCaller_some hook range j _ _ (setCaller_of_not_HasCaller _ _ hno)).1

theorem Fire_without_caller_witness :
    (∀ m : GoMap GoString Value, (id m).Perm m) ∧
    (⟨none, some [(lit "k", Value.other (lit "v"))], InfoLevel, none, lit "hello"⟩ :
      Entry).HasCaller = false ∧
    ((JournalHook.mk).Fire id quietJournal
        ⟨none, some [(lit "user-id", Value.int 42)], ErrorLevel, none, lit "boom"⟩).journal.sent =
      quietJournal.sent ++ [⟨lit "boom", PriErr, [(lit "USER_ID", lit "42")]⟩] ∧
    ((JournalHook.mk).Fire id quietJournal
        ⟨none, some [(lit "k", Value.other (lit "v"))], InfoLevel, none,
          lit "hello"⟩).journal.sent =
      quietJournal.sent ++ [⟨lit "hello", GoMap.index 0 severityMap InfoLevel,
        stringifyEntries id [(lit "k", Value.other (lit "v"))]⟩] :=
  ⟨fun m => List.Perm.refl m, by decide,
    Fire_without_caller JournalHook.mk id quietJournal
      ⟨none, some [(lit "k", Value.other (lit "v"))], InfoLevel, none, lit "hello"⟩ none
      (fun m => List.Perm.refl m) (by decide)⟩

/-- C13, as stated, fails: on an entry built by hand with caller info and the nil map as
metadata `Fire` panics in `setCaller`: it makes no call of `Send` and returns nothing,
whatever the journal client would have answered. -/
theorem Fire_nil_data_returns_nothing :
    (nilDataEntry WarnLevel).HasCaller = true ∧
    (nilDataEntry WarnLevel).DataMap = none ∧
    ((JournalHook.mk).Fire id quietJournal (nilDataEntry WarnLevel)).outcome =
      Outcome.panicked ∧
    ((JournalHook.mk).Fire id quietJournal (nilDataEntry WarnLevel)).journal.sent =
      quietJournal.sent ∧
    ¬ ∃ call, ((JournalHook.mk).Fire id quietJournal (nilDataEntry WarnLevel)).journal.sent =
        quietJournal.sent ++ [call] ∧
      ((JournalHook.mk).Fire id quietJournal (nilDataEntry WarnLevel)).outcome =
        Outcome.returned (quietJournal.respond quietJournal.sent call) := by
  have ho : ((JournalHook.mk).Fire id quietJournal (nilDataEntry WarnLevel)).outcome =
      Outcome.panicked := by decide
  refine ⟨by decide, by decide, ho, by decide, ?_⟩
  rintro ⟨call, _, h⟩
  rw [ho] at h
  cases h

/-- C13, amended: for every entry whose metadata is not the nil map, or that carries no
caller info, and for every behaviour of the journal client, `Fire` makes exactly one call of
`Send` and returns what that call returns: `nil` when `Send` returns `nil`, and the same
error when `Send` fails. -/
theorem Fire_returns_Send_result (hook : JournalHook)
    (range : GoMap GoString Value → List (GoString × Value)) (j : Journal) (entry : Entry)
    (hdata : entry.DataMap ≠ none ∨ entry.HasCaller = false) :
    ∃ e', hook.setCaller entry = some e' ∧
      (hook.Fire range j entry).journal.sent =
        j.sent ++ [⟨entry.Message, GoMap.index 0 severityMap entry.Level,
          stringifyEntries range e'.Data⟩] ∧
      (hook.Fire range j entry).outcome =
        Outcome.returned (j.respond j.sent ⟨entry.Message,
          GoMap.index 0 severityMap entry.Level, stringifyEntries range e'.Data⟩) ∧
      (hook.Fire range j entry).journal.respond = j.respond := by
  obtain ⟨e', he⟩ := setCaller_isSome hook entry hdata
  obtain ⟨h1, h2, h3, _⟩ := Fire_of_setCaller_some hook range j entry e' he
  exact ⟨e', he, h1, h2, h3⟩

theorem Fire_returns_Send_result_witness :
    (sampleEntry.DataMap ≠ none ∨ sampleEntry.HasCaller = false) ∧
    ∃ e', (JournalHook.mk).setCaller sampleEntry = some e' ∧
      ((JournalHook.mk).Fire id
          ⟨fun _ _ => some ⟨lit "journal unavailable"⟩, []⟩ sampleEntry).journal.sent =
        [] ++ [⟨sampleEntry.Message, GoMap.index 0 severityMap sampleEntry.Level,
          stringifyEntries id e'.Data⟩] ∧
      ((JournalHook.mk).Fire id
          ⟨fun _ _ => some ⟨lit "journal unavailable"⟩, []⟩ sampleEntry).outcome =
        Outcome.returned (some ⟨lit "journal unavailable"⟩) ∧
      ((JournalHook.mk).Fire id
          ⟨fun _ _ => some ⟨lit "journal unavailable"⟩, []⟩ sampleEntry).journal.respond =
        fun _ _ => some ⟨lit "journal unavailable"⟩ :=
  ⟨Or.inl (by decide),
    Fire_returns_Send_result JournalHook.mk id
      ⟨fun _ _ => some ⟨lit "journal unavailable"⟩, []⟩ sampleEntry (Or.inl (by decide))⟩

/-- C16: `stringifyOp r` is `r` itself when `r` is in `A`-`Z`, in `0`-`9` or is the
underscore; it is `r - 32`, the corresponding uppercase letter, when `r` is in `a`-`z`; and
it is the underscore for every other rune, in particular for every rune that is not
ASCII. -/
theorem stringifyOp_cases (r : Rune) :
    ((65 ≤ r ∧ r ≤ 90) ∨ (48 ≤ r ∧ r ≤ 57) ∨ r = 95 → stringifyOp r = r) ∧
    (97 ≤ r ∧ r ≤ 122 → stringifyOp r = r - 32 ∧ 65 ≤ r - 32 ∧ r - 32 ≤ 90) ∧
    (¬ ((65 ≤ r ∧ r ≤ 90) ∨ (48 ≤ r ∧ r ≤ 57) ∨ r = 95 ∨ (97 ≤ r ∧ r ≤ 122)) →
      stringifyOp r = 95) ∧
    (r < 0 ∨ 127 < r → stringifyOp r = 95) := by
  unfold stringifyOp Rune
  refine ⟨?_, ?_, ?_, ?_⟩ <;> intro h <;> split_ifs <;> omega

theorem stringifyOp_cases_witness :
    stringifyOp 65 = 65 ∧ stringifyOp 55 = 55 ∧ stringifyOp 97 = 97 - 32 ∧
    stringifyOp 45 = 95 ∧ stringifyOp 233 = 95 :=
  ⟨(stringifyOp_cases 65).1 (by decide), (stringifyOp_cases 55).1 (by decide),
    ((stringifyOp_cases 97).2.1 (by decide)).1, (stringifyOp_cases 45).2.2.1 (by decide),
    (stringifyOp_cases 233).2.2.2 (by decide)⟩

/-- C18: `Fire` changes the metadata of the entry only through caller enrichment: without
caller info the metadata after `Fire` is the metadata before (the whole entry is as it
was, a nil map staying nil); in every case the metadata after `Fire` agrees with the
metadata before on every key other than `func` and `file`; the message and the level are
not changed. -/
theorem Fire_frame (hook : JournalHook)
    (range : GoMap GoString Value → List (GoString × Value)) (j : Journal) (entry : Entry) :
    (entry.HasCaller = false → (hook.Fire range j entry).entry.Data = entry.Data) ∧
    (∀ k, k ≠ lit "func" → k ≠ lit "file" →
      GoMap.get? (hook.Fire range j entry).entry.Data k = GoMap.get? entry.Data k) ∧
    (hook.Fire range j entry).entry.Message = entry.Message ∧
    (hook.Fire range j entry).entry.Level = entry.Level ∧
    (entry.HasCaller = false → (hook.Fire range j entry).entry = entry) := by
  cases hs : hook.setCaller entry with
  | none =>
    obtain ⟨_, _, he⟩ := Fire_of_setCaller_none hook range j entry hs
    rw [he]
    exact ⟨fun _ => rfl, fun _ _ _ => rfl, rfl, rfl, fun _ => rfl⟩
  | some e' =>
    obtain ⟨_, _, _, he⟩ := Fire_of_setCaller_some hook range j entry e' hs
    obtain ⟨hm, hl, hget⟩ := setCaller_frame hook entry e' hs
    rw [he]
    have hsame : entry.HasCaller = false → e' = entry := by
      intro h
      rw [setCaller_of_not_HasCaller hook entry h] at hs
      exact (Option.some.inj hs).symm
    exact ⟨fun h => by rw [hsame h], hget, hm, hl, hsame⟩

theorem Fire_frame_witness :
    (⟨none, some [(lit "k", Value.int 1)], InfoLevel, none, lit "m"⟩ : Entry).HasCaller = false ∧
    ((JournalHook.mk).Fire id quietJournal
      ⟨none, some [(lit "k", Value.int 1)], InfoLevel, none, lit "m"⟩).entry.Data =
      [(lit "k", Value.int 1)] ∧
    lit "user-id" ≠ lit "func" ∧ lit "user-id" ≠ lit "file" ∧
    GoMap.get? ((JournalHook.mk).Fire id quietJournal sampleEntry).entry.Data (lit "user-id") =
      GoMap.get? sampleEntry.Data (lit "user-id") :=
  ⟨by decide,
    (Fire_frame JournalHook.mk id quietJournal
      ⟨none, some [(lit "k", Value.int 1)], InfoLevel, none, lit "m"⟩).1 (by decide),
    by decide, by decide,
    (Fire_frame JournalHook.mk id quietJournal sampleEntry).2.1 (lit "user-id") (by decide)
      (by decide)⟩

/-- C20: on the six levels returned by `Levels` the severity map preserves the order (a level
is numerically below another exactly when its priority is numerically below the priority of
the other), no two distinct levels share a priority, and every level has an entry. -/
theorem severityMap_order (hook : JournalHook) :
    (∀ a ∈ hook.Levels, ∀ b ∈ hook.Levels,
      (a < b ↔ GoMap.index 0 severityMap a < GoMap.index 0 severityMap b)) ∧
    (∀ a ∈ hook.Levels, ∀ b ∈ hook.Levels,
      GoMap.index 0 severityMap a = GoMap.index 0 severityMap b → a = b) ∧
    (∀ l ∈ hook.Levels, ∃ p, GoMap.get? severityMap l = some p ∧
      GoMap.index 0 severityMap l = p) := by
  simp only [JournalHook.Levels]
  refine ⟨by decide, by decide, ?_⟩
  intro l hl
  simp only [List.mem_cons, List.mem_singleton, List.not_mem_nil, or_false] at hl
  rcases hl with rfl | rfl | rfl | rfl | rfl | rfl <;> exact ⟨_, rfl, rfl⟩

theorem severityMap_order_witness :
    ErrorLevel ∈ (JournalHook.mk).Levels ∧ InfoLevel ∈ (JournalHook.mk).Levels ∧
    (ErrorLevel < InfoLevel ↔
      GoMap.index 0 severityMap ErrorLevel < GoMap.index 0 severityMap InfoLevel) :=
  ⟨by decide, by decide,
    (severityMap_order JournalHook.mk).1 ErrorLevel (by decide) InfoLevel (by decide)⟩

/-- C14: when two keys sanitize to the same key, as `user-id` and `user_id` do,
`stringifyEntries` produces a single entry for it, whose value is the text of one of the
two; in general no sanitized key occurs twice in the output, every output entry comes from
an input entry, and the number of output entries is the number of distinct sanitized keys,
which is at most the number of input entries. -/
theorem stringifyEntries_collisions
    (range : GoMap GoString Value → List (GoString × Value)) (data : GoMap GoString Value)
    (hrange : ∀ m, (range m).Perm m) :
    (∃ v, stringifyEntries range [(lit "user-id", Value.int 1), (lit "user_id", Value.int 2)] =
        [(lit "USER_ID", v)] ∧ (v = lit "1" ∨ v = lit "2")) ∧
    (GoMap.keys (stringifyEntries range data)).Nodup ∧
    (∀ p ∈ stringifyEntries range data,
      ∃ kv ∈ data, p = (stringifyKey kv.1, fmtSprint kv.2)) ∧
    (stringifyEntries range data).length =
      ((data.map (fun kv => stringifyKey kv.1)).dedup).length ∧
    (stringifyEntries range data).length ≤ data.length := by
  have hnodup : (GoMap.keys (stringifyEntries range data)).Nodup :=
    foldl_set_nodup (range data) [] List.nodup_nil
  have hlen : (stringifyEntries range data).length =
      ((data.map (fun kv => stringifyKey kv.1)).dedup).length := by
    have hperm : (GoMap.keys (stringifyEntries range data)).Perm
        ((data.map (fun kv => stringifyKey kv.1)).dedup) := by
      rw [List.perm_ext_iff_of_nodup hnodup (List.nodup_dedup _)]
      intro k
      rw [stringifyEntries_eq_foldl, foldl_set_keys, List.mem_dedup, List.mem_map]
      simp only [GoMap.keys, List.map_nil, List.not_mem_nil, false_or]
      constructor
      · rintro ⟨kv, hkv, hk⟩
        exact ⟨kv, (hrange data).mem_iff.1 hkv, hk⟩
      · rintro ⟨kv, hkv, hk⟩
        exact ⟨kv, (hrange data).mem_iff.2 hkv, hk⟩
    have := hperm.length_eq
    simpa [GoMap.keys] using this
  refine ⟨?_, hnodup, ?_, hlen, ?_⟩
  · have h1 : stringifyKey (lit "user-id") = lit "USER_ID" := by decide
    have h2 : stringifyKey (lit "user_id") = lit "USER_ID" := by decide
    have h3 : fmtSprint (Value.int 1) = lit "1" := by decide
    have h4 : fmtSprint (Value.int 2) = lit "2" := by decide
    rw [stringifyEntries_eq_foldl]
    rcases perm_pair_cases (hrange [(lit "user-id", Value.int 1), (lit "user_id", Value.int 2)])
      with h | h
    · refine ⟨lit "2", ?_, Or.inr rfl⟩
      rw [h]
      simp [List.foldl, GoMap.set, h1, h2, h3, h4]
    · refine ⟨lit "1", ?_, Or.inl rfl⟩
      rw [h]
      simp [List.foldl, GoMap.set, h1, h2, h3, h4]
  · intro p hp
    rw [stringifyEntries_eq_foldl] at hp
    rcases foldl_set_mem _ _ _ hp with h | ⟨kv, hkv, hk⟩
    · cases h
    · exact ⟨kv, (hrange data).mem_iff.1 hkv, hk⟩
  · rw [hlen]
    have := (List.dedup_sublist (data.map (fun kv => stringifyKey kv.1))).length_le
    simpa using this

theorem stringifyEntries_collisions_witness :
    (∀ m : GoMap GoString Value, (id m).Perm m) ∧
    ((∃ v, stringifyEntries id [(lit "user-id", Value.int 1), (lit "user_id", Value.int 2)] =
        [(lit "USER_ID", v)] ∧ (v = lit "1" ∨ v = lit "2")) ∧
    (GoMap.keys (stringifyEntries id
      [(lit "a-b", Value.int 1), (lit "a_b", Value.int 2), (lit "c", Value.int 3)])).Nodup ∧
    (∀ p ∈ stringifyEntries id
        [(lit "a-b", Value.int 1), (lit "a_b", Value.int 2), (lit "c", Value.int 3)],
      ∃ kv ∈ [(lit "a-b", Value.int 1), (lit "a_b", Value.int 2), (lit "c", Value.int 3)],
        p = (stringifyKey kv.1, fmtSprint kv.2)) ∧
    (stringifyEntries id
        [(lit "a-b", Value.int 1), (lit "a_b", Value.int 2), (lit "c", Value.int 3)]).length =
      (([(lit "a-b", Value.int 1), (lit "a_b", Value.int 2), (lit "c", Value.int 3)].map
        (fun kv => stringifyKey kv.1)).dedup).length ∧
    (stringifyEntries id
        [(lit "a-b", Value.int 1), (lit "a_b", Value.int 2), (lit "c", Value.int 3)]).length ≤
      [(lit "a-b", Value.int 1), (lit "a_b", Value.int 2), (lit "c", Value.int 3)].length) :=
  ⟨fun m => List.Perm.refl m,
    stringifyEntries_collisions id
      [(lit "a-b", Value.int 1), (lit "a_b", Value.int 2), (lit "c", Value.int 3)]
      (fun m => List.Perm.refl m)⟩

/-- C15: with the standard logger as explicit state, `Enable` registers a `JournalHook` (for
each of its levels) and sets the output writer to the discard writer when the journal
reports itself enabled; when it does not, `Enable` leaves the registered hooks and the
output writer as they were, and only logs the warning through the logger as it is. -/
theorem Enable_effect (std : StdLogger) :
    ((Enable true std).Hooks = LevelHooks.Add std.Hooks JournalHook.mk ∧
      (∀ l ∈ (JournalHook.mk).Levels,
        Hook.journalHook JournalHook.mk ∈ GoMap.index [] (Enable true std).Hooks l) ∧
      (Enable true std).Out = Writer.discard ∧
      (Enable true std).written = std.written ∧
      (Enable true std).fired = std.fired) ∧
    ((Enable false std).Hooks = std.Hooks ∧
      (Enable false std).Out = std.Out ∧
      (Enable false std).written =
        std.written ++ (if std.Level ≥ WarnLevel then [(std.Out, enableWarning)] else []) ∧
      (Enable false std).fired =
        std.fired ++ (if std.Level ≥ WarnLevel then
          (GoMap.index [] std.Hooks WarnLevel).map (fun h => (h, WarnLevel, enableWarning))
          else [])) := by
  refine ⟨⟨rfl, ?_, rfl, rfl, rfl⟩, ?_⟩
  · intro l hl
    exact LevelHooks_Add_mem JournalHook.mk l _ std.Hooks hl
  · simp only [Enable, Bool.not_false, if_true, logrus.Warning]
    split_ifs <;> simp

/-- C17: the keys of `stringifyEntries data` are exactly the sanitized keys of `data`; for
every key of `data` whose sanitized form is shared by no other key of `data`, the output
maps the sanitized key to the text of the value stored under the key; and the empty map
gives the empty map. -/
theorem stringifyEntries_keys_values
    (range : GoMap GoString Value → List (GoString × Value)) (data : GoMap GoString Value)
    (hrange : ∀ m, (range m).Perm m) (hnodup : (GoMap.keys data).Nodup) :
    (∀ k', k' ∈ GoMap.keys (stringifyEntries range data) ↔
      ∃ k ∈ GoMap.keys data, stringifyKey k = k') ∧
    (∀ k v, GoMap.get? data k = some v →
      (∀ k2 ∈ GoMap.keys data, stringifyKey k2 = stringifyKey k → k2 = k) →
      GoMap.get? (stringifyEntries range data) (stringifyKey k) = some (fmtSprint v)) ∧
    stringifyEntries range [] = [] := by
  refine ⟨?_, ?_, ?_⟩
  · intro k'
    rw [stringifyEntries_eq_foldl, foldl_set_keys]
    simp only [GoMap.keys, List.map_nil, List.not_mem_nil, false_or, List.mem_map,
      exists_exists_and_eq_and]
    constructor
    · rintro ⟨kv, hkv, hk⟩
      exact ⟨kv, (hrange data).mem_iff.1 hkv, hk⟩
    · rintro ⟨kv, hkv, hk⟩
      exact ⟨kv, (hrange data).mem_iff.2 hkv, hk⟩
  · intro k v hget huniq
    have hmem : (k, v) ∈ data := mem_of_get? data k v hget
    rw [stringifyEntries_eq_foldl]
    apply foldl_set_get?
    · intro kv hkv hk
      have hkv' : kv ∈ data := (hrange data).mem_iff.1 hkv
      have hk1 : kv.1 = k := huniq kv.1 (List.mem_map.2 ⟨kv, hkv', rfl⟩) hk
      have hkv2 : (k, kv.2) ∈ data := by
        rw [← hk1]
        exact hkv'
      have := get?_of_mem_nodup data k kv.2 hnodup hkv2
      rw [hget] at this
      rw [Option.some.inj this]
    · right
      exact ⟨(k, v), (hrange data).mem_iff.2 hmem, rfl⟩
  · rw [stringifyEntries_eq_foldl, List.perm_nil.1 (hrange [])]
    rfl

theorem stringifyEntries_keys_values_witness :
    (∀ m : GoMap GoString Value, (id m).Perm m) ∧
    (GoMap.keys [(lit "a-b", Value.int 1), (lit "a_b", Value.int 2),
      (lit "c", Value.int 3)]).Nodup ∧
    ((∀ k', k' ∈ GoMap.keys (stringifyEntries id
        [(lit "a-b", Value.int 1), (lit "a_b", Value.int 2), (lit "c", Value.int 3)]) ↔
      ∃ k ∈ GoMap.keys
        [(lit "a-b", Value.int 1), (lit "a_b", Value.int 2), (lit "c", Value.int 3)],
        stringifyKey k = k') ∧
    (∀ k v, GoMap.get?
        [(lit "a-b", Value.int 1), (lit "a_b", Value.int 2), (lit "c", Value.int 3)] k =
          some v →
      (∀ k2 ∈ GoMap.keys
        [(lit "a-b", Value.int 1), (lit "a_b", Value.int 2), (lit "c", Value.int 3)],
        stringifyKey k2 = stringifyKey k → k2 = k) →
      GoMap.get? (stringifyEntries id
        [(lit "a-b", Value.int 1), (lit "a_b", Value.int 2), (lit "c", Value.int 3)])
        (stringifyKey k) = some (fmtSprint v)) ∧
    stringifyEntries id [] = []) :=
  ⟨fun m => List.Perm.refl m, by decide,
    stringifyEntries_keys_values id
      [(lit "a-b", Value.int 1), (lit "a_b", Value.int 2), (lit "c", Value.int 3)]
      (fun m => List.Perm.refl m) (by decide)⟩

/-- C19: a key made only of `A`-`Z`, `0`-`9` and underscores that does not begin with an
underscore is a fixed point of `stringifyKey`; hence sanitizing twice is sanitizing once for
every key whose sanitized form does not begin with an underscore; and `stringifyKey` is not
idempotent in general, as the key `__a` shows. -/
theorem stringifyKey_fixed_point (key k : GoString) :
    ((∀ b ∈ key, identByte b) → strings.HasPrefix key (lit "_") = false →
      stringifyKey key = key) ∧
    (strings.HasPrefix (stringifyKey k) (lit "_") = false →
      stringifyKey (stringifyKey k) = stringifyKey k) ∧
    stringifyKey (stringifyKey (lit "__a")) ≠ stringifyKey (lit "__a") := by
  refine ⟨stringifyKey_of_ident key, ?_, by decide⟩
  intro h
  exact stringifyKey_of_ident _ (mem_stringifyKey_ident k) h

theorem stringifyKey_fixed_point_witness :
    (∀ b ∈ lit "FOO_BAR", identByte b) ∧
    strings.HasPrefix (lit "FOO_BAR") (lit "_") = false ∧
    stringifyKey (lit "FOO_BAR") = lit "FOO_BAR" ∧
    strings.HasPrefix (stringifyKey (lit "foo-bar")) (lit "_") = false ∧
    stringifyKey (stringifyKey (lit "foo-bar")) = stringifyKey (lit "foo-bar") :=
  ⟨by decide, by decide,
    (stringifyKey_fixed_point (lit "FOO_BAR") (lit "foo-bar")).1 (by decide) (by decide),
    by decide,
    (stringifyKey_fixed_point (lit "FOO_BAR") (lit "foo-bar")).2.1 (by decide)⟩

end Journalhook
